import Mathlib

/-
Verification of the `next-path-helper` route registry
(`src/utils/pathManager.ts`).

Strings are modelled as `List Char` (`Str`).  The JavaScript regular
expression `/\[.*?\]/` (lazy match of a bracketed run) is modelled
exactly: `.` does not match line terminators, the match is the leftmost
one, and `.*?` stops at the first closing bracket.  `String.replace`
with a non-global regex replaces only the first match and interprets
`$`-patterns (`$$`, `$&`, a backtick pattern, an apostrophe pattern) in
the replacement string; `expandRepl` reproduces that.
-/

namespace NextPathHelper

/-- Strings of the TypeScript source, modelled as lists of characters. -/
abbrev Str := List Char

/-- Characters matched by `.` in a JavaScript regex (everything except
the four line terminators). -/
def jsDot (c : Char) : Bool :=
  c ≠ '\n' && c ≠ '\r' && c ≠ Char.ofNat 0x2028 && c ≠ Char.ofNat 0x2029

/-- After an opening bracket, a lazy `.*?\]` scan: return the shortest
run of dot-matching characters followed by `]`, together with the rest
of the input, or `none` when no such close exists. -/
def scanClose : Str → Option (Str × Str)
  | [] => none
  | c :: cs =>
    if c = ']' then some ([], cs)
    else if jsDot c then
      match scanClose cs with
      | some (inner, rest) => some (c :: inner, rest)
      | none => none
    else none

/-- Leftmost match of `/\[.*?\]/` in a string: `some (before, matched,
after)`, or `none` when the regex does not match. -/
def bracketMatch : Str → Option (Str × Str × Str)
  | [] => none
  | c :: cs =>
    if c = '[' then
      match scanClose cs with
      | some (inner, rest) => some ([], '[' :: (inner ++ [']']), rest)
      | none =>
        match bracketMatch cs with
        | some (b, m, a) => some (c :: b, m, a)
        | none => none
    else
      match bracketMatch cs with
      | some (b, m, a) => some (c :: b, m, a)
      | none => none

/-- `isDynamicPath` from the source: `/\[.*?\]/.test(relativePath)`. -/
def isDynamicPath (relativePath : Str) : Bool :=
  (bracketMatch relativePath).isSome

/-- JavaScript `String.replace` replacement-string expansion for a
groupless regex: `$$` yields `$`, `$&` the matched text, backtick-`$`
the text before the match, apostrophe-`$` the text after it; any other
`$` is literal (the regex `/\[.*?\]/` has no capture groups). -/
def expandRepl : Str → Str → Str → Str → Str
  | [], _, _, _ => []
  | [c], _, _, _ => if c = '$' then ['$'] else [c]
  | c :: d :: rest2, b, m, a =>
    if c = '$' then
      if d = '$' then '$' :: expandRepl rest2 b m a
      else if d = '&' then m ++ expandRepl rest2 b m a
      else if d = Char.ofNat 96 then b ++ expandRepl rest2 b m a
      else if d = Char.ofNat 39 then a ++ expandRepl rest2 b m a
      else '$' :: d :: expandRepl rest2 b m a
    else c :: expandRepl (d :: rest2) b m a

/-- JavaScript `s.replace(/\[.*?\]/, repl)`: replace the first match,
expanding `$`-patterns in the replacement string. -/
def jsReplaceFirst (s repl : Str) : Str :=
  match bracketMatch s with
  | none => s
  | some (b, m, a) => b ++ expandRepl repl b m a ++ a

/-- The path function stored by `addPathToManager`: start from
`"/" + relativePath` and, for each argument in turn, replace the first
`/\[.*?\]/` match with that argument's string form. -/
def pathFn (relativePath : Str) (args : List Str) : Str :=
  args.foldl (fun dynamicPath arg => jsReplaceFirst dynamicPath arg) ('/' :: relativePath)

/-- Specification-level substitution, following the spec's words: each
bracketed segment of the original template is replaced, in order of
first occurrence, by the literal string form of the corresponding
positional argument; excess arguments are ignored and missing arguments
leave their bracket literal in place.  Compared against `pathFn`. -/
def specSubst : Str → List Str → Str
  | s, [] => s
  | s, arg :: rest =>
    match bracketMatch s with
    | none => s
    | some (b, _, a) => b ++ arg ++ specSubst a rest

/-- Shift a regex-match triple across an untouched prefix. -/
def liftPre (q : Str) : Option (Str × Str × Str) → Option (Str × Str × Str)
  | none => none
  | some (b, m, a) => some (q ++ b, m, a)

/-- JavaScript `relativePath.split("/")`. -/
def splitOnSlash : Str → List Str
  | [] => [[]]
  | c :: cs =>
    if c = '/' then [] :: splitOnSlash cs
    else
      match splitOnSlash cs with
      | [] => [[c]]
      | s :: ss => (c :: s) :: ss

/-- JavaScript `s.startsWith(p)` for a one-character `p`. -/
def jsStartsWith (s : Str) (c : Char) : Bool :=
  match s with
  | [] => false
  | x :: _ => x = c

/-- JavaScript `s.endsWith(p)` for a one-character `p`. -/
def jsEndsWith (s : Str) (c : Char) : Bool :=
  match s.getLast? with
  | none => false
  | some x => x = c

/-- The segment list computed inside `generateKeyAndLabel`: split on
`/` and keep a segment iff it is non-empty, does not start with `(`,
and does not end with `)`. -/
def routeSegments (relativePath : Str) : List Str :=
  (splitOnSlash relativePath).filter
    (fun segment => !segment.isEmpty && !jsStartsWith segment '(' && !jsEndsWith segment ')')

/-- The filter the spec describes: keep a segment iff it is non-empty
and is not a group marker (first character `(` AND last character `)`).
Compared against `routeSegments`. -/
def specRouteSegments (relativePath : Str) : List Str :=
  (splitOnSlash relativePath).filter
    (fun segment => !segment.isEmpty && !(jsStartsWith segment '(' && jsEndsWith segment ')'))

/-- `singularise` from the source: strip one trailing `s`. -/
def singularise (word : Str) : Str :=
  if jsEndsWith word 's' then word.dropLast else word

/-- JavaScript `s.charAt(0).toUpperCase() + s.slice(1)`. -/
def capitalise : Str → Str
  | [] => []
  | c :: cs => c.toUpper :: cs

/-- JavaScript `s.charAt(0).toLowerCase() + s.slice(1)`. -/
def lowerFirst : Str → Str
  | [] => []
  | c :: cs => c.toLower :: cs

/-- Result record of `generateKeyAndLabel`. -/
structure KeyLabel where
  key : Str
  label : Str
deriving DecidableEq, Repr

/-- `generateKeyAndLabel` from the source.  When the final kept segment
is dynamic, the key/label are built from the singularised, capitalised
non-dynamic segments; otherwise they come from `cleanItem`.  (When no
segment survives the filter, JavaScript reads `segments[-1]` as
`undefined`, which the dynamic test rejects, so the `cleanItem` branch
runs; `getD []` models that.) -/
def generateKeyAndLabel (relativePath cleanItem : Str) : KeyLabel :=
  let segments := routeSegments relativePath
  let lastSegment := segments.getLast?.getD []
  if isDynamicPath lastSegment then
    let nonDynamicSegments := segments.filter (fun segment => !isDynamicPath segment)
    let capitalisedSegments := nonDynamicSegments.map
      (fun segment => singularise (capitalise segment))
    let key := "view".data ++ List.intercalate [] capitalisedSegments
    { key := lowerFirst key
      label := "View ".data ++ List.intercalate [' '] capitalisedSegments }
  else
    { key := lowerFirst cleanItem, label := capitalise cleanItem }

/-- `item.replace(/\[.*?\]/, "")` from `processDirectory`. -/
def cleanItemOf (item : Str) : Str :=
  match bracketMatch item with
  | none => item
  | some (b, _, a) => b ++ a

/-- The `type` field of `PathInfo`: `"static" | "dynamic"`. -/
inductive PathType where
  | static
  | dynamic
deriving DecidableEq, Repr

/-- `PathInfo` from the source.  The runtime type checks of
`addPath`/`updatePath` (label a string, path a function, navs an array,
group a string when present, type one of the two literals) are enforced
here by the Lean types, so those validation branches are unreachable in
this embedding.  `group` is `none` when the field is absent
(JavaScript `undefined`). -/
structure PathInfo where
  label : Str
  path : List Str → Str
  navs : List Str
  group : Option Str := none
  type : PathType

/-- `NavLink` from the source. -/
structure NavLink where
  label : Str
  path : List Str → Str

/-- The `paths` record: key/value pairs in insertion order, keys
unique (a JavaScript object with string keys). -/
abbrev Registry := List (Str × PathInfo)

/-- Property lookup `this.paths[key]`. -/
def getEntry : Registry → Str → Option PathInfo
  | [], _ => none
  | (k, v) :: rest, key => if k = key then some v else getEntry rest key

/-- Property assignment `this.paths[key] = v` for a key already
present: the value changes in place, insertion order is unchanged. -/
def setEntry : Registry → Str → PathInfo → Registry
  | [], _, _ => []
  | (k, v) :: rest, key, pathInfo =>
    if k = key then (k, pathInfo) :: rest else (k, v) :: setEntry rest key pathInfo

/-- The duplicate-key error message thrown by `addPath`. -/
def dupMsg (key : Str) : Str :=
  "Path '".data ++ key ++ "' already exists.".data

/-- The soft-failure diagnostic logged for a missing key. -/
def notFoundMsg (key : Str) : Str :=
  "Path '".data ++ key ++ "' not found.".data

/-- `addPath` from the source: a throw is modelled as `Except.error`
with the thrown message, leaving the registry untouched.  The key must
not already be present. -/
def addPath (reg : Registry) (key : Str) (pathInfo : PathInfo) : Except Str Registry :=
  if (getEntry reg key).isSome then Except.error (dupMsg key)
  else Except.ok (reg ++ [(key, pathInfo)])

/-- `addPathToManager` from the source: derive key/label, store the
closure over `relativePath` together with `navs = []`,
`group: group || ""` and the static/dynamic kind.  A pending thrown
error is returned as `some message` alongside the registry state at
the moment of the throw. -/
def addPathToManager (reg : Registry) (relativePath cleanItem : Str) (group : Option Str) :
    Registry × Option Str :=
  let isDynamic := isDynamicPath relativePath
  let kl := generateKeyAndLabel relativePath cleanItem
  match addPath reg kl.key
      { label := kl.label
        path := pathFn relativePath
        navs := []
        group := some (group.getD [])
        type := if isDynamic then PathType.dynamic else PathType.static } with
  | Except.ok reg2 => (reg2, none)
  | Except.error e => (reg, some e)

/-- The foreach-push loop of `addNav`: append each tag that is not
already present, left to right. -/
def navAfter (old tags : List Str) : List Str :=
  tags.foldl (fun navs nav => if nav ∈ navs then navs else navs ++ [nav]) old

/-- `addNav` from the source: push the new unique tags onto the
entry's `navs`; a missing key logs a diagnostic (second component)
and changes nothing. -/
def addNav (reg : Registry) (key : Str) (navs : List Str) : Registry × List Str :=
  match getEntry reg key with
  | some pathInfo =>
    (setEntry reg key { pathInfo with navs := navAfter pathInfo.navs navs }, [])
  | none => (reg, [notFoundMsg key])

/-- `makeNavList` from the source: map each key to its `{label, path}`
pair, logging a diagnostic and yielding nothing for a missing key
(the source maps missing keys to `null` and filters the nulls out). -/
def makeNavList (reg : Registry) (keys : List Str) : List NavLink × List Str :=
  match keys with
  | [] => ([], [])
  | key :: rest =>
    let tail := makeNavList reg rest
    match getEntry reg key with
    | some pathInfo => ({ label := pathInfo.label, path := pathInfo.path } :: tail.1, tail.2)
    | none => (tail.1, notFoundMsg key :: tail.2)

mutual
/-- A directory tree as seen through `fs.readdirSync`/`statSync`:
children are listed in `readdirSync` order.  (`FSForest` is a child
list; the two types are mutually inductive so the walk can be defined
by structural recursion.) -/
inductive FSTree where
  | file (name : Str)
  | dir (name : Str) (children : FSForest)
inductive FSForest where
  | nil
  | cons (hd : FSTree) (tl : FSForest)
end

/-- `path.relative(baseDir, fullPath)` (forward slashes) for a child
named `item` of a directory whose own relative path is `parentRel`. -/
def childRelPath (parentRel item : Str) : Str :=
  if parentRel = [] then item else parentRel ++ '/' :: item

/-- The `readdirSync` entry name of a tree node. -/
def FSTree.name : FSTree → Str
  | FSTree.file n => n
  | FSTree.dir n _ => n

mutual
/-- `processDirectory` from the source, for one directory child whose
relative path from the route root is `relativePath`.  A group-marker
name (`(x)`) contributes no entry and its children are walked with the
group replaced by the name inside the parentheses (`item.slice(1,-1)`);
any other name is added via `addPathToManager` and its children are
walked with the same group.  A thrown duplicate-key error propagates
(`some message`) with the registry as mutated so far; the children are
then not visited. -/
def processDirectory : FSTree → Str → Option Str → Registry → Registry × Option Str
  | FSTree.file _, _, _, reg => (reg, none)
  | FSTree.dir item children, relativePath, group, reg =>
    if jsStartsWith item '(' && jsEndsWith item ')' then
      locateSubDirs children relativePath (some (item.drop 1).dropLast) reg
    else
      match addPathToManager reg relativePath (cleanItemOf item) group with
      | (reg2, some e) => (reg2, some e)
      | (reg2, none) => locateSubDirs children relativePath group reg2

/-- `locateSubDirs` from the source: walk the listed children in
order, skipping non-directories (the `file` constructor, handled
inside `processDirectory` here), stopping if an error propagates.
`dirRel` is the walked directory's own path relative to the route
root (`[]` for the root itself). -/
def locateSubDirs : FSForest → Str → Option Str → Registry → Registry × Option Str
  | FSForest.nil, _, _, reg => (reg, none)
  | FSForest.cons t rest, dirRel, group, reg =>
    match processDirectory t (childRelPath dirRel t.name) group reg with
    | (reg2, some e) => (reg2, some e)
    | (reg2, none) => locateSubDirs rest dirRel group reg2
end

/-- The two route-root candidates, as "exists and is a directory":
`some children` models an existing directory with those listed
children. -/
structure ProjectFS where
  appDir : Option FSForest
  srcAppDir : Option FSForest

/-- `locateAppDir` from the source: try `<root>/app`, then
`<root>/src/app`; the first existing directory wins, `none` when
neither exists.  Returns the winning path string and its children. -/
def locateAppDir (fs : ProjectFS) (projectRoot : Str) : Option (Str × FSForest) :=
  match fs.appDir with
  | some children => some (projectRoot ++ "/app".data, children)
  | none =>
    match fs.srcAppDir with
    | some children => some (projectRoot ++ "/src/app".data, children)
    | none => none

/-- The seeded `home` entry of `buildPathList` (its path closure
`() => "/"` ignores any arguments). -/
def homeInfo : PathInfo :=
  { label := "Home".data, path := fun _ => ['/'], navs := [], group := none
    type := PathType.static }

/-- The opening/closing banner lines logged by `buildPathList`. -/
def bannerMsg : Str := "***** Path Manager *****".data

/-- The diagnostic `console.error("App directory not found in the
project root:", root)`, modelled as one concatenated line. -/
def notFoundLog (projectRoot : Str) : Str :=
  "App directory not found in the project root: ".data ++ projectRoot

/-- `buildPathList` from the source.  Result: the new `paths` map, the
console lines in order, and a pending thrown error (`some message`)
when a duplicate key aborts the walk.  On the not-found branch the
prior map is left untouched; on the success branch it is replaced by
the seeded `home` entry plus the walk's output; when the walk throws,
the trailing log lines (including the closing banner) are skipped and
the error propagates to the caller. -/
def buildPathList (fs : ProjectFS) (projectRoot : Str) (reg : Registry) :
    Registry × List Str × Option Str :=
  match locateAppDir fs projectRoot with
  | some (appDirPath, children) =>
    let seeded : Registry := [("home".data, homeInfo)]
    match locateSubDirs children [] none seeded with
    | (reg2, some e) => (reg2, [bannerMsg], some e)
    | (reg2, none) =>
      (reg2,
        [bannerMsg,
         "App router detected ".data ++ appDirPath,
         "Paths have been generated".data,
         "Ensure you read the docs for more information".data,
         "************************".data],
        none)
  | none =>
    (reg, [bannerMsg, notFoundLog projectRoot, "************************".data], none)

/-- The directory tree `app/(auth)/login`. -/
def authForest : FSForest :=
  FSForest.cons
    (FSTree.dir "(auth)".data
      (FSForest.cons (FSTree.dir "login".data FSForest.nil) FSForest.nil))
    FSForest.nil

/-- A directory tree in which two distinct non-group directories derive
the same key: `app/alpha/common` and `app/beta/common` both derive the
key `common`. -/
def collideForest : FSForest :=
  FSForest.cons
    (FSTree.dir "alpha".data
      (FSForest.cons (FSTree.dir "common".data FSForest.nil) FSForest.nil))
    (FSForest.cons
      (FSTree.dir "beta".data
        (FSForest.cons (FSTree.dir "common".data FSForest.nil) FSForest.nil))
      FSForest.nil)

/-
Lemmas about the regex model, leading to the conditional equivalence of
the stored `pathFn` with the spec-level positional substitution.
-/

lemma liftPre_nil (o : Option (Str × Str × Str)) : liftPre [] o = o := by
  cases o with
  | none => rfl
  | some x =>
    obtain ⟨b, m, a⟩ := x
    simp [liftPre]

lemma liftPre_liftPre (q r : Str) (o : Option (Str × Str × Str)) :
    liftPre q (liftPre r o) = liftPre (q ++ r) o := by
  cases o with
  | none => rfl
  | some x =>
    obtain ⟨b, m, a⟩ := x
    simp [liftPre]

lemma expandRepl_of_not_dollar (repl : Str) (b m a : Str) (h : '$' ∉ repl) :
    expandRepl repl b m a = repl := by
  induction repl with
  | nil => rfl
  | cons c rest ih =>
    have hc : c ≠ '$' := by
      intro hc
      exact h (hc ▸ List.mem_cons_self c rest)
    have hrest : '$' ∉ rest := fun hr => h (List.mem_cons_of_mem c hr)
    cases rest with
    | nil => simp [expandRepl, hc]
    | cons d rest2 => simp [expandRepl, hc, ih hrest]

lemma scanClose_eq_some (cs inner rest : Str) (h : scanClose cs = some (inner, rest)) :
    cs = inner ++ ']' :: rest ∧ ∀ c ∈ inner, jsDot c ∧ c ≠ ']' := by
  induction cs generalizing inner with
  | nil => simp [scanClose] at h
  | cons c cs ih =>
    by_cases hc : c = ']'
    · simp [scanClose, hc] at h
      obtain ⟨h1, h2⟩ := h
      subst h1
      subst h2
      simp [hc]
    · by_cases hd : jsDot c
      · simp [scanClose, hc, hd] at h
        rcases hsc : scanClose cs with _ | p
        · rw [hsc] at h
          simp at h
        · obtain ⟨i2, r2⟩ := p
          rw [hsc] at h
          simp at h
          obtain ⟨h1, h2⟩ := h
          subst h1
          subst h2
          obtain ⟨he, hall⟩ := ih i2 hsc
          subst he
          refine ⟨by simp, ?_⟩
          intro x hx
          rcases List.mem_cons.mp hx with hx | hx
          · subst hx
            exact ⟨hd, hc⟩
          · exact hall x hx
      · simp [scanClose, hc, hd] at h

lemma scanClose_append_dots (pre rest : Str) (h : ∀ c ∈ pre, jsDot c ∧ c ≠ ']') :
    scanClose (pre ++ ']' :: rest) = some (pre, rest) := by
  induction pre with
  | nil => simp [scanClose]
  | cons c pre ih =>
    have hc := h c (List.mem_cons_self c pre)
    have hpre : ∀ x ∈ pre, jsDot x ∧ x ≠ ']' := fun x hx => h x (List.mem_cons_of_mem c hx)
    simp [scanClose, hc.2, hc.1, ih hpre]

lemma scanClose_none_split (xs ys : Str) (h : scanClose (xs ++ ys) = none) :
    (∀ zs, scanClose (xs ++ zs) = none) ∨ scanClose ys = none := by
  induction xs with
  | nil => right; simpa using h
  | cons x xs ih =>
    by_cases hx : x = ']'
    · simp [scanClose, hx] at h
    · by_cases hd : jsDot x
      · rcases hsc : scanClose (xs ++ ys) with _ | p
        · rcases ih hsc with hl | hr
          · left
            intro zs
            simp [scanClose, hx, hd, hl zs]
          · right; exact hr
        · obtain ⟨i2, r2⟩ := p
          simp [scanClose, hx, hd, hsc] at h
      · left
        intro zs
        have hx2 : x ≠ ']' := by
          intro he
          subst he
          exact hd (by decide)
        simp only [List.cons_append, scanClose, if_neg hx2, if_neg hd]

lemma bracketMatch_eq_some (s : Str) :
    ∀ b m a, bracketMatch s = some (b, m, a) →
      s = b ++ m ++ a ∧ ∃ inner, m = '[' :: (inner ++ [']']) ∧ ∀ c ∈ inner, jsDot c ∧ c ≠ ']' := by
  induction s with
  | nil => intro b m a h; simp [bracketMatch] at h
  | cons c cs ih =>
    intro b m a h
    by_cases hc : c = '['
    · rcases hsc : scanClose cs with _ | ⟨inner, rest⟩
      · rcases hbm : bracketMatch cs with _ | ⟨b2, m2, a2⟩
        · simp [bracketMatch, hc, hsc, hbm] at h
        · simp [bracketMatch, hc, hsc, hbm] at h
          obtain ⟨hb, hm, ha⟩ := h
          subst hb
          subst hm
          subst ha
          obtain ⟨hcs, inner2, hm2, hdots⟩ := ih b2 m2 a2 hbm
          constructor
          · simp [hcs, hc, List.append_assoc]
          · exact ⟨inner2, hm2, hdots⟩
      · simp [bracketMatch, hc, hsc] at h
        obtain ⟨hb, hm, ha⟩ := h
        subst hb
        subst hm
        subst ha
        obtain ⟨hcs, hdots⟩ := scanClose_eq_some cs inner rest hsc
        subst hc
        constructor
        · simp [hcs, List.append_assoc]
        · exact ⟨inner, rfl, hdots⟩
    · rcases hbm : bracketMatch cs with _ | ⟨b2, m2, a2⟩
      · simp [bracketMatch, hc, hbm] at h
      · simp [bracketMatch, hc, hbm] at h
        obtain ⟨hb, hm, ha⟩ := h
        subst hb
        subst hm
        subst ha
        obtain ⟨hcs, inner2, hm2, hdots⟩ := ih b2 m2 a2 hbm
        constructor
        · simp [hcs, List.append_assoc]
        · exact ⟨inner2, hm2, hdots⟩

lemma bracketMatch_prefix_stable (s : Str) :
    ∀ b m a, bracketMatch s = some (b, m, a) →
      ∀ zs, bracketMatch (b ++ zs) = liftPre b (bracketMatch zs) := by
  induction s with
  | nil => intro b m a h; simp [bracketMatch] at h
  | cons c cs ih =>
    intro b m a h
    by_cases hc : c = '['
    · rcases hsc : scanClose cs with _ | ⟨inner, rest⟩
      · rcases hbm : bracketMatch cs with _ | ⟨b2, m2, a2⟩
        · simp [bracketMatch, hc, hsc, hbm] at h
        · simp [bracketMatch, hc, hsc, hbm] at h
          obtain ⟨hb, hm, ha⟩ := h
          subst hb
          subst hm
          subst ha
          obtain ⟨hcs, inner2, hm2, hdots⟩ := bracketMatch_eq_some cs b2 m2 a2 hbm
          have hnone : ∀ ws, scanClose (b2 ++ ws) = none := by
            have h1 : scanClose (b2 ++ (m2 ++ a2)) = none := by
              rw [← List.append_assoc, ← hcs]
              exact hsc
            rcases scanClose_none_split b2 (m2 ++ a2) h1 with hl | hr
            · exact hl
            · exfalso
              have hms : m2 ++ a2 = ('[' :: inner2) ++ ']' :: a2 := by
                simp [hm2, List.append_assoc]
              rw [hms, scanClose_append_dots ('[' :: inner2) a2 ?_] at hr
              · exact Option.noConfusion hr
              · intro x hx
                rcases List.mem_cons.mp hx with hx | hx
                · subst hx
                  exact ⟨by decide, by decide⟩
                · exact hdots x hx
          intro zs
          subst hc
          have e1 : ('[' :: b2) ++ zs = '[' :: (b2 ++ zs) := by simp
          rw [e1]
          simp [bracketMatch, hnone zs, ih b2 m2 a2 hbm zs]
          rcases bracketMatch zs with _ | ⟨b3, m3, a3⟩
          · simp [liftPre]
          · simp [liftPre]
      · simp [bracketMatch, hc, hsc] at h
        obtain ⟨hb, hm, ha⟩ := h
        subst hb
        intro zs
        simp [liftPre_nil]
    · rcases hbm : bracketMatch cs with _ | ⟨b2, m2, a2⟩
      · simp [bracketMatch, hc, hbm] at h
      · simp [bracketMatch, hc, hbm] at h
        obtain ⟨hb, hm, ha⟩ := h
        subst hb
        subst hm
        subst ha
        intro zs
        have e1 : (c :: b2) ++ zs = c :: (b2 ++ zs) := by simp
        rw [e1]
        simp [bracketMatch, hc, ih b2 m2 a2 hbm zs]
        rcases bracketMatch zs with _ | ⟨b3, m3, a3⟩
        · simp [liftPre]
        · simp [liftPre]

lemma bracketMatch_clean_prefix (xs : Str) (h : '[' ∉ xs) :
    ∀ ys, bracketMatch (xs ++ ys) = liftPre xs (bracketMatch ys) := by
  induction xs with
  | nil => intro ys; simp [liftPre_nil]
  | cons c xs ih =>
    intro ys
    have hc : c ≠ '[' := by
      intro hc
      exact h (hc ▸ List.mem_cons_self c xs)
    have hxs : '[' ∉ xs := fun hx => h (List.mem_cons_of_mem c hx)
    have e1 : (c :: xs) ++ ys = c :: (xs ++ ys) := by simp
    rw [e1]
    simp only [bracketMatch, if_neg hc, ih hxs ys]
    rcases bracketMatch ys with _ | ⟨b3, m3, a3⟩
    · simp [liftPre]
    · simp [liftPre]

lemma foldlReplace_of_none (s : Str) (args : List Str) (h : bracketMatch s = none) :
    args.foldl (fun dynamicPath arg => jsReplaceFirst dynamicPath arg) s = s := by
  induction args with
  | nil => rfl
  | cons a args ih =>
    have h1 : jsReplaceFirst s a = s := by simp [jsReplaceFirst, h]
    rw [List.foldl_cons, h1, ih]

lemma foldlReplace_inert (q : Str)
    (hq : ∀ t, bracketMatch (q ++ t) = liftPre q (bracketMatch t)) :
    ∀ args : List Str, (∀ a ∈ args, '$' ∉ a) → ∀ t,
      args.foldl (fun dynamicPath arg => jsReplaceFirst dynamicPath arg) (q ++ t)
        = q ++ args.foldl (fun dynamicPath arg => jsReplaceFirst dynamicPath arg) t := by
  intro args
  induction args with
  | nil => intro _ t; rfl
  | cons a args ih =>
    intro hargs t
    have ha : '$' ∉ a := hargs a (List.mem_cons_self a args)
    have hargs2 : ∀ x ∈ args, '$' ∉ x := fun x hx => hargs x (List.mem_cons_of_mem a hx)
    rcases hbm : bracketMatch t with _ | ⟨b2, m2, a2⟩
    · have h1 : jsReplaceFirst (q ++ t) a = q ++ t := by
        simp [jsReplaceFirst, hq t, hbm, liftPre]
      have h2 : jsReplaceFirst t a = t := by simp [jsReplaceFirst, hbm]
      rw [List.foldl_cons, List.foldl_cons, h1, h2]
      exact ih hargs2 t
    · have h1 : jsReplaceFirst (q ++ t) a = q ++ (b2 ++ a ++ a2) := by
        simp [jsReplaceFirst, hq t, hbm, liftPre,
          expandRepl_of_not_dollar a (q ++ b2) m2 a2 ha, List.append_assoc]
      have h2 : jsReplaceFirst t a = b2 ++ a ++ a2 := by
        simp [jsReplaceFirst, hbm, expandRepl_of_not_dollar a b2 m2 a2 ha, List.append_assoc]
      rw [List.foldl_cons, List.foldl_cons, h1, h2]
      exact ih hargs2 (b2 ++ a ++ a2)

lemma foldlReplace_eq_specSubst :
    ∀ args : List Str, (∀ a ∈ args, '$' ∉ a ∧ '[' ∉ a) → ∀ s,
      args.foldl (fun dynamicPath arg => jsReplaceFirst dynamicPath arg) s = specSubst s args := by
  intro args
  induction args with
  | nil => intro _ s; rfl
  | cons a args ih =>
    intro hargs s
    have ha := hargs a (List.mem_cons_self a args)
    have hargs2 : ∀ x ∈ args, '$' ∉ x ∧ '[' ∉ x := fun x hx => hargs x (List.mem_cons_of_mem a hx)
    rcases hbm : bracketMatch s with _ | ⟨b, m, aft⟩
    · have h1 : jsReplaceFirst s a = s := by simp [jsReplaceFirst, hbm]
      have h2 : specSubst s (a :: args) = s := by simp [specSubst, hbm]
      rw [List.foldl_cons, h1, h2, foldlReplace_of_none s args hbm]
    · have h1 : jsReplaceFirst s a = (b ++ a) ++ aft := by
        simp [jsReplaceFirst, hbm, expandRepl_of_not_dollar a b m aft ha.1, List.append_assoc]
      have hq : ∀ t, bracketMatch ((b ++ a) ++ t) = liftPre (b ++ a) (bracketMatch t) := by
        intro t
        have e1 : (b ++ a) ++ t = b ++ (a ++ t) := by simp [List.append_assoc]
        rw [e1, bracketMatch_prefix_stable s b m aft hbm (a ++ t),
          bracketMatch_clean_prefix a ha.2 t, liftPre_liftPre]
      have hstep := foldlReplace_inert (b ++ a) hq args (fun x hx => (hargs2 x hx).1) aft
      rw [List.foldl_cons, h1, hstep, ih hargs2 aft]
      simp [specSubst, hbm, List.append_assoc]

/-- Conditional equivalence of the stored path closure with the
spec-level positional substitution: it holds whenever no argument's
string form contains `$` (which `String.replace` would interpret as a
replacement pattern) or `[` (which a later replacement could re-match). -/
lemma pathFn_eq_specSubst (relativePath : Str) (args : List Str)
    (h : ∀ a ∈ args, '$' ∉ a ∧ '[' ∉ a) :
    pathFn relativePath args = specSubst ('/' :: relativePath) args :=
  foldlReplace_eq_specSubst args h ('/' :: relativePath)

/-
Lemmas about the registry and the nav-tag foreach loop.
-/

lemma getEntry_append_of_none (reg : Registry) (key : Str) (v : PathInfo)
    (h : getEntry reg key = none) : getEntry (reg ++ [(key, v)]) key = some v := by
  induction reg with
  | nil => simp [getEntry]
  | cons p reg ih =>
    obtain ⟨k, w⟩ := p
    by_cases hk : k = key
    · simp [getEntry, hk] at h
    · simp [getEntry, hk] at h ⊢
      exact ih h

lemma getEntry_setEntry_self (reg : Registry) (key : Str) (v w : PathInfo)
    (h : getEntry reg key = some v) : getEntry (setEntry reg key w) key = some w := by
  induction reg with
  | nil => simp [getEntry] at h
  | cons p reg ih =>
    obtain ⟨k, u⟩ := p
    by_cases hk : k = key
    · simp [getEntry, setEntry, hk]
    · simp [getEntry, setEntry, hk] at h ⊢
      exact ih h

lemma setEntry_setEntry (reg : Registry) (key : Str) (v w : PathInfo) :
    setEntry (setEntry reg key v) key w = setEntry reg key w := by
  induction reg with
  | nil => simp [setEntry]
  | cons p reg ih =>
    obtain ⟨k, u⟩ := p
    by_cases hk : k = key
    · simp [setEntry, hk]
    · simp [setEntry, hk, ih]

lemma navAfter_mem (old tags : List Str) (x : Str) :
    x ∈ navAfter old tags ↔ x ∈ old ∨ x ∈ tags := by
  induction tags generalizing old with
  | nil => simp [navAfter]
  | cons t tags ih =>
    show x ∈ navAfter (if t ∈ old then old else old ++ [t]) tags ↔ _
    rw [ih]
    by_cases ht : t ∈ old
    · simp only [if_pos ht]
      constructor
      · rintro (hx | hx)
        · exact Or.inl hx
        · exact Or.inr (List.mem_cons_of_mem t hx)
      · rintro (hx | hx)
        · exact Or.inl hx
        · rcases List.mem_cons.mp hx with hx | hx
          · exact Or.inl (hx ▸ ht)
          · exact Or.inr hx
    · simp only [if_neg ht, List.mem_append, List.mem_singleton, List.mem_cons]
      tauto

lemma navAfter_nodup (old tags : List Str) (h : old.Nodup) : (navAfter old tags).Nodup := by
  induction tags generalizing old with
  | nil => exact h
  | cons t tags ih =>
    show (navAfter (if t ∈ old then old else old ++ [t]) tags).Nodup
    by_cases ht : t ∈ old
    · rw [if_pos ht]
      exact ih old h
    · rw [if_neg ht]
      refine ih (old ++ [t]) ?_
      simp [List.nodup_append, h, ht]

lemma navAfter_of_subset (old tags : List Str) (h : ∀ x ∈ tags, x ∈ old) :
    navAfter old tags = old := by
  induction tags generalizing old with
  | nil => rfl
  | cons t tags ih =>
    have ht : t ∈ old := h t (List.mem_cons_self t tags)
    show navAfter (if t ∈ old then old else old ++ [t]) tags = old
    rw [if_pos ht]
    exact ih old (fun x hx => h x (List.mem_cons_of_mem t hx))

lemma navAfter_idem (old tags : List Str) :
    navAfter (navAfter old tags) tags = navAfter old tags :=
  navAfter_of_subset _ _ (fun x hx => (navAfter_mem old tags x).mpr (Or.inr hx))

lemma navAfter_append_tail (old tags : List Str) :
    ∃ tl, navAfter old tags = old ++ tl := by
  induction tags generalizing old with
  | nil => exact ⟨[], by simp [navAfter]⟩
  | cons t tags ih =>
    show ∃ tl, navAfter (if t ∈ old then old else old ++ [t]) tags = old ++ tl
    by_cases ht : t ∈ old
    · rw [if_pos ht]
      exact ih old
    · rw [if_neg ht]
      obtain ⟨tl, htl⟩ := ih (old ++ [t])
      exact ⟨t :: tl, by simp [htl]⟩

lemma count_eq_one_of_nodup_mem (l : List Str) (t : Str) (hn : l.Nodup) (ht : t ∈ l) :
    l.count t = 1 := by
  induction l with
  | nil => simp at ht
  | cons x l ih =>
    rw [List.count_cons]
    obtain ⟨hx, hl⟩ := List.nodup_cons.mp hn
    rcases List.mem_cons.mp ht with h | h
    · subst h
      have h0 : l.count t = 0 := List.count_eq_zero.mpr hx
      simp [h0]
    · have hne : ¬x = t := by
        intro he
        exact hx (he ▸ h)
      simp [ih hl h, hne]

lemma navAfter_count_one (old tags : List Str) (t : Str) (hn : old.Nodup) (ht : t ∈ tags) :
    (navAfter old tags).count t = 1 :=
  count_eq_one_of_nodup_mem _ t (navAfter_nodup old tags hn)
    ((navAfter_mem old tags t).mpr (Or.inr ht))

/-
The claim theorems.
-/

/-- C1: `generateKeyAndLabel` reproduces the naming contract exactly on
the spec's reference inputs: `("users/[userId]", "users")` yields key
`viewUser` and label `View User`; `("users/profile", "profile")` yields
key `profile` and label `Profile`. -/
theorem claim_C1 :
    generateKeyAndLabel "users/[userId]".data "users".data =
        { key := "viewUser".data, label := "View User".data } ∧
    generateKeyAndLabel "users/profile".data "profile".data =
        { key := "profile".data, label := "Profile".data } := by
  decide

/-- C2, counterexample: the claim's universal literal-substitution
reading fails on the code.  Called with the single argument `$&`, the
stored path function re-inserts the matched bracket segment (JavaScript
replacement-pattern expansion), so the result is not the template with
the literal argument substituted. -/
theorem claim_C2_counterexample :
    pathFn "example/[id]".data ["$&".data] = "/example/[id]".data ∧
    specSubst ('/' :: "example/[id]".data) ["$&".data] = "/example/$&".data ∧
    pathFn "example/[id]".data ["$&".data] ≠
      specSubst ('/' :: "example/[id]".data) ["$&".data] := by
  decide

/-- C2, amended: for every relative path and every argument list in
which no argument's string form contains `$` or `[`, the path function
returns `"/" + relativePath` with each bracketed segment replaced, in
order of first occurrence, by the corresponding positional argument;
excess arguments are ignored and missing arguments leave their bracket
literal in place (`specSubst` captures exactly that); and the function
built from `example/[id]/sub/[subId]` called with `("123","456")`
returns `/example/123/sub/456`. -/
theorem claim_C2 :
    (∀ (relativePath : Str) (args : List Str), (∀ a ∈ args, '$' ∉ a ∧ '[' ∉ a) →
        pathFn relativePath args = specSubst ('/' :: relativePath) args) ∧
    pathFn "example/[id]/sub/[subId]".data ["123".data, "456".data] =
      "/example/123/sub/456".data :=
  ⟨pathFn_eq_specSubst, by decide⟩

/-- C2, witness: the general part of the amended claim applied at the
spec's concrete example. -/
theorem claim_C2_witness :
    pathFn "example/[id]/sub/[subId]".data ["123".data, "456".data] =
      specSubst ('/' :: "example/[id]/sub/[subId]".data) ["123".data, "456".data] :=
  claim_C2.1 "example/[id]/sub/[subId]".data ["123".data, "456".data] (by decide)

/-- C3: inserting a key that is already present fails with the
duplicate-key error, and the entry stored under that key after the
failed second insert is the one stored by the first insert. -/
theorem claim_C3 (reg : Registry) (key : Str) (v1 v2 : PathInfo) (reg2 : Registry)
    (h : addPath reg key v1 = Except.ok reg2) :
    addPath reg2 key v2 = Except.error (dupMsg key) ∧ getEntry reg2 key = some v1 := by
  unfold addPath at h
  by_cases hk : (getEntry reg key).isSome
  · simp [hk] at h
  · simp [hk] at h
    have hnone : getEntry reg key = none := Option.not_isSome_iff_eq_none.mp hk
    have hg : getEntry reg2 key = some v1 := by
      rw [← h]
      exact getEntry_append_of_none reg key v1 hnone
    refine ⟨?_, hg⟩
    simp [addPath, hg]

/-- C3, witness: the theorem applied at a concrete one-entry registry. -/
theorem claim_C3_witness :
    addPath [("a".data, homeInfo)] "a".data homeInfo = Except.error (dupMsg "a".data) ∧
    getEntry [("a".data, homeInfo)] "a".data = some homeInfo :=
  claim_C3 [] "a".data homeInfo homeInfo [("a".data, homeInfo)] rfl

/-- C4: when the route root cannot be located, `buildPathList` leaves
the registry mapping exactly as it was, logs the not-found diagnostic,
and raises no exception. -/
theorem claim_C4 (fs : ProjectFS) (root : Str) (reg : Registry)
    (h : locateAppDir fs root = none) :
    (buildPathList fs root reg).1 = reg ∧
    notFoundLog root ∈ (buildPathList fs root reg).2.1 ∧
    (buildPathList fs root reg).2.2 = none := by
  simp [buildPathList, h]

/-- C4, witness: the theorem applied to a project with neither
candidate directory present and a non-empty prior registry. -/
theorem claim_C4_witness :
    (buildPathList ⟨none, none⟩ "/proj".data [("home".data, homeInfo)]).1 =
        [("home".data, homeInfo)] ∧
    notFoundLog "/proj".data ∈ (buildPathList ⟨none, none⟩ "/proj".data
        [("home".data, homeInfo)]).2.1 ∧
    (buildPathList ⟨none, none⟩ "/proj".data [("home".data, homeInfo)]).2.2 = none :=
  claim_C4 ⟨none, none⟩ "/proj".data [("home".data, homeInfo)] rfl

/-- C5: walking `app/(auth)/login` yields exactly one route entry
beyond the seed, with group `auth` and key `login` — but its path
function is built from the relative path `(auth)/login`, not `login`:
applied to no arguments it returns `/(auth)/login`, which differs from
`/login`.  This evaluates the code at the claim's failing input. -/
theorem claim_C5 :
    locateSubDirs authForest [] none [("home".data, homeInfo)] =
      ([("home".data, homeInfo),
        ("login".data,
          { label := "Login".data, path := pathFn "(auth)/login".data, navs := [],
            group := some "auth".data, type := PathType.static })], none) ∧
    pathFn "(auth)/login".data [] = "/(auth)/login".data ∧
    pathFn "(auth)/login".data [] ≠ "/login".data :=
  ⟨rfl, by decide, by decide⟩

/-- C6: `addNav` is idempotent.  For an existing key whose `navs` has
no duplicates, after adding `tags` the stored entry's `navs` is the
foreach-push result: it is duplicate-free, contains each added tag
exactly once, extends the previous `navs` on the right (order of
first-added preserved), and adding the same `tags` again changes
nothing. -/
theorem claim_C6 (reg : Registry) (key : Str) (tags : List Str) (e : PathInfo)
    (hget : getEntry reg key = some e) (hnodup : e.navs.Nodup) :
    ∃ e2, getEntry (addNav reg key tags).1 key = some e2 ∧
      e2.navs = navAfter e.navs tags ∧
      e2.navs.Nodup ∧
      (∀ t ∈ tags, e2.navs.count t = 1) ∧
      (∃ tl, e2.navs = e.navs ++ tl) ∧
      (addNav (addNav reg key tags).1 key tags).1 = (addNav reg key tags).1 := by
  have h1 : addNav reg key tags =
      (setEntry reg key { e with navs := navAfter e.navs tags }, []) := by
    simp [addNav, hget]
  refine ⟨{ e with navs := navAfter e.navs tags }, ?_, rfl,
    navAfter_nodup _ _ hnodup,
    (fun t ht => navAfter_count_one _ _ t hnodup ht),
    navAfter_append_tail _ _, ?_⟩
  · rw [h1]
    exact getEntry_setEntry_self reg key e _ hget
  · rw [h1]
    have hget2 : getEntry (setEntry reg key { e with navs := navAfter e.navs tags }) key =
        some { e with navs := navAfter e.navs tags } :=
      getEntry_setEntry_self reg key e _ hget
    simp only [addNav, hget2]
    rw [navAfter_idem, setEntry_setEntry]

/-- C6, witness: the theorem applied at a concrete registry, key and
tag list. -/
theorem claim_C6_witness :
    ∃ e2, getEntry (addNav [("p".data, homeInfo)] "p".data ["mainnav".data]).1 "p".data =
        some e2 ∧
      e2.navs = navAfter homeInfo.navs ["mainnav".data] ∧
      e2.navs.Nodup ∧
      (∀ t ∈ ["mainnav".data], e2.navs.count t = 1) ∧
      (∃ tl, e2.navs = homeInfo.navs ++ tl) ∧
      (addNav (addNav [("p".data, homeInfo)] "p".data ["mainnav".data]).1 "p".data
          ["mainnav".data]).1 =
        (addNav [("p".data, homeInfo)] "p".data ["mainnav".data]).1 :=
  claim_C6 [("p".data, homeInfo)] "p".data ["mainnav".data] homeInfo rfl (by simp [homeInfo])

/-- C7, counterexample: the claim says exactly the group-marker
segments (first character `(` AND last character `)`) are discarded,
and a segment with only one of the two properties is kept.  The code
discards any segment that starts with `(` OR ends with `)`: in
`(a/b` the segment `(a` is not a group marker, yet it is discarded. -/
theorem claim_C7_counterexample :
    routeSegments "(a/b".data = ["b".data] ∧
    specRouteSegments "(a/b".data = ["(a".data, "b".data] ∧
    routeSegments "(a/b".data ≠ specRouteSegments "(a/b".data := by
  decide

/-- C7, amended: the segments that key/label derivation discards are
exactly those that are empty, start with `(`, or end with `)` (the
union of the two paren conditions, not their conjunction). -/
theorem claim_C7 (relativePath seg : Str) (h : seg ∈ splitOnSlash relativePath) :
    seg ∈ routeSegments relativePath ↔
      seg.isEmpty = false ∧ jsStartsWith seg '(' = false ∧ jsEndsWith seg ')' = false := by
  simp [routeSegments, List.mem_filter, h, Bool.and_eq_true, Bool.not_eq_true', and_assoc]

/-- C7, witness: the amended characterisation applied at a concrete
path and segment. -/
theorem claim_C7_witness :
    "b".data ∈ routeSegments "(a/b".data ↔
      ("b".data : Str).isEmpty = false ∧ jsStartsWith "b".data '(' = false ∧
        jsEndsWith "b".data ')' = false :=
  claim_C7 "(a/b".data "b".data (by decide)

/-- C8: `makeNavList` returns the `{label, path}` pairs in exactly the
caller-supplied key order (the `filterMap` over `keys`), omitting each
absent key while logging one diagnostic for it, and its output depends
only on what `getEntry` returns for the requested keys — not on the
registry's internal order. -/
theorem claim_C8 (reg reg2 : Registry) (keys : List Str)
    (h : ∀ k ∈ keys, getEntry reg2 k = getEntry reg k) :
    (makeNavList reg keys).1 = keys.filterMap
        (fun k => (getEntry reg k).map (fun e => NavLink.mk e.label e.path)) ∧
    (makeNavList reg keys).2 =
        (keys.filter (fun k => (getEntry reg k).isNone)).map notFoundMsg ∧
    makeNavList reg2 keys = makeNavList reg keys := by
  revert h
  induction keys with
  | nil => intro _; exact ⟨rfl, rfl, rfl⟩
  | cons k keys ih =>
    intro h
    have hk := h k (List.mem_cons_self k keys)
    obtain ⟨h1, h2, h3⟩ := ih (fun x hx => h x (List.mem_cons_of_mem k hx))
    rcases hg : getEntry reg k with _ | e
    · refine ⟨?_, ?_, ?_⟩
      · simp [makeNavList, hg, h1]
      · simp [makeNavList, hg, h2]
      · simp [makeNavList, hg, hk, h3]
    · refine ⟨?_, ?_, ?_⟩
      · simp [makeNavList, hg, h1]
      · simp [makeNavList, hg, h2]
      · simp [makeNavList, hg, hk, h3]

/-- C8, witness: the theorem applied to two concrete registries that
hold the same entries in opposite internal order, with a key list whose
order differs from both and which contains one missing key. -/
theorem claim_C8_witness :
    (makeNavList [("aa".data, homeInfo), ("bb".data, homeInfo)]
        ["bb".data, "aa".data, "zz".data]).1 =
      (["bb".data, "aa".data, "zz".data].filterMap
        (fun k => (getEntry [("aa".data, homeInfo), ("bb".data, homeInfo)] k).map
          (fun e => NavLink.mk e.label e.path))) ∧
    (makeNavList [("aa".data, homeInfo), ("bb".data, homeInfo)]
        ["bb".data, "aa".data, "zz".data]).2 =
      ((["bb".data, "aa".data, "zz".data].filter
        (fun k => (getEntry [("aa".data, homeInfo), ("bb".data, homeInfo)] k).isNone)).map
          notFoundMsg) ∧
    makeNavList [("bb".data, homeInfo), ("aa".data, homeInfo)]
        ["bb".data, "aa".data, "zz".data] =
      makeNavList [("aa".data, homeInfo), ("bb".data, homeInfo)]
        ["bb".data, "aa".data, "zz".data] := by
  refine claim_C8 _ _ _ ?_
  intro k hk
  simp only [List.mem_cons, List.not_mem_nil, or_false] at hk
  rcases hk with rfl | rfl | rfl <;> rfl

/-- C9: on a tree where two distinct non-group directories derive the
same key (`app/alpha/common` and `app/beta/common` both derive
`common`), `buildPathList` aborts with the duplicate-key error; the
error propagates (pending-error component is `some`), only the opening
banner was logged, and the registry holds the seeded `home` entry plus
exactly the entries emitted before the collision. -/
theorem claim_C9 :
    buildPathList ⟨some collideForest, none⟩ "/proj".data [("stale".data, homeInfo)] =
      ([("home".data, homeInfo),
        ("alpha".data, { label := "Alpha".data, path := pathFn "alpha".data, navs := [],
                         group := some [], type := PathType.static }),
        ("common".data, { label := "Common".data, path := pathFn "alpha/common".data,
                          navs := [], group := some [], type := PathType.static }),
        ("beta".data, { label := "Beta".data, path := pathFn "beta".data, navs := [],
                        group := some [], type := PathType.static })],
       [bannerMsg], some (dupMsg "common".data)) :=
  rfl

/-- C10, counterexample: the claim conditions the literal-substitution
guarantee only on arguments containing no `$`.  An argument containing
a bracket pair (here `[z]`, with no `$`) is re-matched by the next
replacement, so the guarantee fails although the condition holds. -/
theorem claim_C10_counterexample :
    ('$' ∉ "[z]".data ∧ '$' ∉ "w".data) ∧
    pathFn "a/[x]/b/[y]".data ["[z]".data, "w".data] = "/a/w/b/[y]".data ∧
    specSubst ('/' :: "a/[x]/b/[y]".data) ["[z]".data, "w".data] = "/a/[z]/b/w".data ∧
    pathFn "a/[x]/b/[y]".data ["[z]".data, "w".data] ≠
      specSubst ('/' :: "a/[x]/b/[y]".data) ["[z]".data, "w".data] := by
  decide

/-- C10, amended: the substitution is performed by sequential regex
string replacement, so the literal-substitution guarantee is
conditional on no argument containing `$` (replacement patterns) or `[`
(re-matched by later replacements); under that condition the result is
the positional substitution, and for the argument `$&` the output is
not the path with the literal argument substituted. -/
theorem claim_C10 :
    (∀ (relativePath : Str) (args : List Str), (∀ a ∈ args, '$' ∉ a ∧ '[' ∉ a) →
        pathFn relativePath args = specSubst ('/' :: relativePath) args) ∧
    pathFn "a/[id]".data ["$&".data] ≠ specSubst ('/' :: "a/[id]".data) ["$&".data] :=
  ⟨pathFn_eq_specSubst, by decide⟩

/-- C10, witness: the conditional guarantee applied at a concrete
dynamic path and clean argument. -/
theorem claim_C10_witness :
    pathFn "users/[uid]".data ["7".data] =
      specSubst ('/' :: "users/[uid]".data) ["7".data] :=
  claim_C10.1 "users/[uid]".data ["7".data] (by decide)

end NextPathHelper
